import Mathlib

/-!
Verification of the static-analysis core of the ZSEI repository.

This file shallowly embeds the Rust source under `src/` into Lean:
strings are lists of characters, `std::path` paths are a root flag plus a
component list, the filesystem is an oracle pair (existence test and file
reader), and tree-sitter (an external C library) is abstracted behind
oracle extractors.  `f64` arithmetic in the maintainability index is
modelled as `Option EReal` (`none` = NaN) with IEEE-754 special-value
rules and exact real arithmetic on finite values.

Embedded functions (with their Rust origin):
* `calculate_cyclomatic_complexity`, `calculate_maintainability_index`
  and `RustAnalyzer::analyze_file` from `src/analyzers/rust/mod.rs`;
* `resolve_import_path` from `src/analyzers/rust/mod.rs`;
* `CodeGraph::new`, `get_outgoing_dependencies` and
  `get_dependency_path` from `src/analyzers/common/mod.rs`;
* `Analyzer::analyze_files` from `src/analyzers/mod.rs`.
-/

namespace ZSEI

/-! ## Strings as character lists

Rust `&str` values are modelled as `List Char`.  The string operations the
analyzer uses (`split("::")`, `replace("::", "/")`, `split('/')`,
`starts_with`, `matches(pat).count()`) are defined below.  The two-character
separator `"::"` is handled by structural pattern matching so that all of
these functions reduce inside the kernel. -/

/-- Rust `&str`, as a list of characters. -/
abbrev Str := List Char

/-- Literal helper: a Lean string literal as a `Str`. -/
def lit (s : String) : Str := s.toList

/-- Rust `str::split("::")`: split on the two-character scope separator,
keeping empty segments, exactly as Rust's `split` does.  Structural
specialisation of splitting on the literal `"::"`. -/
def splitDColon : Str → List Str
  | [] => [[]]
  | ':' :: ':' :: rest => [] :: splitDColon rest
  | c :: rest =>
    match splitDColon rest with
    | [] => [[c]]
    | g :: gs => (c :: g) :: gs

/-- Rust `str::replace("::", "/")`: replace every occurrence of the scope
separator by a slash, scanning left to right. -/
def replaceDColonSlash : Str → Str
  | [] => []
  | ':' :: ':' :: rest => '/' :: replaceDColonSlash rest
  | c :: rest => c :: replaceDColonSlash rest

/-- Rust `str::split('/')` (used to interpret the string argument of
`Path::join`), keeping empty segments. -/
def splitSlash : Str → List Str
  | [] => [[]]
  | '/' :: rest => [] :: splitSlash rest
  | c :: rest =>
    match splitSlash rest with
    | [] => [[c]]
    | g :: gs => (c :: g) :: gs

/-- Number of non-overlapping occurrences of `pat` in `s`, scanning left to
right: Rust `s.matches(pat).count()` for a non-empty string pattern. -/
def countMatches (pat : Str) : Str → Nat
  | [] => 0
  | c :: rest =>
    if pat ≠ [] ∧ pat.isPrefixOf (c :: rest) then
      1 + countMatches pat ((c :: rest).drop pat.length)
    else
      countMatches pat rest
termination_by s => s.length
decreasing_by
  · simp only [List.length_drop, List.length_cons]
    rename_i h
    have hp : pat.length ≠ 0 := by
      simpa [List.length_eq_zero] using h.1
    omega
  · simp

/-- Does `pat` occur as a contiguous substring starting at some position of
`s`?  Helper for `strContains`. -/
def occursIn (pat : Str) : Str → Bool
  | [] => pat.isEmpty
  | c :: rest => pat.isPrefixOf (c :: rest) || occursIn pat rest

/-- Rust `str::contains` for string patterns: substring containment. -/
def strContains (s pat : Str) : Bool := occursIn pat s

/-- Rust `str::lines()`: split on `'\n'`, drop a final empty segment (no
trailing empty line), and strip one trailing `'\r'` from each line. -/
def linesOf (s : Str) : List Str :=
  if s = [] then []
  else
    let parts := splitSlashNL s
    let parts := if parts.getLast? = some [] then parts.dropLast else parts
    parts.map (fun l => if l.getLast? = some '\x0d' then l.dropLast else l)
where
  /-- `str::split('\n')`, keeping empty segments. -/
  splitSlashNL : Str → List Str
    | [] => [[]]
    | '\n' :: rest => [] :: splitSlashNL rest
    | c :: rest =>
      match splitSlashNL rest with
      | [] => [[c]]
      | g :: gs => (c :: g) :: gs

/-- Rust `str::trim()`: strip leading and trailing whitespace. -/
def trimStr (s : Str) : Str :=
  ((s.dropWhile Char.isWhitespace).reverse.dropWhile Char.isWhitespace).reverse

/-! ## Paths

A Rust `std::path::PathBuf` is modelled as a root flag (`abs`) together
with the list of normal components.  `Path::join` with a string argument
splits the argument on `'/'` (dropping empty components, as Rust's path
parser does) and, when the argument is absolute, replaces the whole path —
exactly Rust's behaviour. -/

/-- A filesystem path: absolute flag plus components. -/
structure Path where
  abs : Bool
  comps : List Str
deriving DecidableEq

/-- The empty path `Path::new("")`. -/
def emptyPath : Path := ⟨false, []⟩

/-- Is this string an absolute path string (leading `'/'`)? -/
def isAbsStr : Str → Bool
  | [] => false
  | c :: _ => c = '/'

/-- The components denoted by a path string: split on `'/'`, dropping
empty components (Rust's path parser ignores duplicate separators). -/
def strComponents (s : Str) : List Str :=
  (splitSlash s).filter (fun c => c ≠ [])

/-- `PathBuf::from(s)`. -/
def pathFrom (s : Str) : Path := ⟨isAbsStr s, strComponents s⟩

/-- Rust `Path::join(s)` with a string argument: an absolute argument
replaces the path, otherwise its components are appended. -/
def pathJoin (p : Path) (s : Str) : Path :=
  if isAbsStr s then ⟨true, strComponents s⟩
  else ⟨p.abs, p.comps ++ strComponents s⟩

/-- Rust `Path::parent`: drop the last component; `None` when there is no
component left. -/
def pathParent (p : Path) : Option Path :=
  match p.comps with
  | [] => none
  | _ :: _ => some ⟨p.abs, p.comps.dropLast⟩

/-- Rust `Path::starts_with`: component-wise prefix test (a relative path
never starts with an absolute one and vice versa). -/
def pathStartsWith (p base : Path) : Bool :=
  p.abs = base.abs && base.comps.isPrefixOf p.comps

/-- Rust `Path::file_name().and_then(to_str).unwrap_or("Unknown")`:
the last component, or `"Unknown"`. -/
def fileNameOf (p : Path) : Str :=
  (p.comps.getLast?).getD (lit "Unknown")

/-- `p` lies within directory `d`: same root and `d`'s components are a
prefix of `p`'s. -/
def withinDir (d p : Path) : Prop :=
  d.abs = p.abs ∧ d.comps.IsPrefix p.comps

instance (d p : Path) : Decidable (withinDir d p) :=
  inferInstanceAs (Decidable (d.abs = p.abs ∧ d.comps.IsPrefix p.comps))

/-! ## Metrics calculator

`RustAnalyzer::calculate_cyclomatic_complexity`
(`src/analyzers/rust/mod.rs`): `1` plus the number of occurrences of each
branch-inducing token, plus half the number of `'|'` characters as a
paired-closure-delimiter heuristic. -/

/-- The `control_flow_patterns` array from the source. -/
def control_flow_patterns : List Str :=
  [lit "if ", lit "else ", lit "match ", lit "for ", lit "while ",
   lit "loop", lit "&&", lit "||", lit "?", lit "return", lit "break",
   lit "continue"]

/-- `RustAnalyzer::calculate_cyclomatic_complexity`. -/
def calculate_cyclomatic_complexity (body : Str) : Nat :=
  let fromPatterns :=
    control_flow_patterns.foldl (fun acc pat => acc + countMatches pat body) 1
  fromPatterns + countMatches (lit "|") body / 2

/-! ## `f64` model for the maintainability index

A 64-bit float is modelled as `Option EReal`: `none` is NaN, `some x` an
extended real (idealising finite-precision rounding, which cannot affect
the claimed range/NaN properties since the final clamp is exact in IEEE
arithmetic).  Each operation implements the IEEE-754 special-value rules
used by Rust `f64`. -/

/-- An `f64` value: `none` is NaN, otherwise an extended real. -/
abbrev F := Option EReal

/-- A finite `f64` constant. -/
noncomputable def creal (c : ℝ) : F := some (c : EReal)

/-- `n as f64` for a `usize` value. -/
noncomputable def fofNat (n : ℕ) : F := some ((n : ℝ) : EReal)

/-- IEEE addition: NaN propagates; opposite infinities give NaN. -/
noncomputable def fadd : F → F → F
  | none, _ => none
  | _, none => none
  | some a, some b =>
    if (a = ⊤ ∧ b = ⊥) ∨ (a = ⊥ ∧ b = ⊤) then none else some (a + b)

/-- IEEE negation. -/
noncomputable def fneg : F → F
  | none => none
  | some a => some (-a)

/-- IEEE subtraction `a - b = a + (-b)`. -/
noncomputable def fsub (a b : F) : F := fadd a (fneg b)

/-- IEEE multiplication: NaN propagates; `0 * ±∞` is NaN. -/
noncomputable def fmul : F → F → F
  | none, _ => none
  | _, none => none
  | some a, some b =>
    if (a = 0 ∧ (b = ⊤ ∨ b = ⊥)) ∨ (b = 0 ∧ (a = ⊤ ∨ a = ⊥)) then none
    else some (a * b)

/-- IEEE division: NaN propagates; `±∞ / ±∞` and `0 / 0` are NaN; a finite
value over an infinity is `0`; division by zero or of an infinity follows
the sign of the other operand (the model has no signed zero). -/
noncomputable def fdiv : F → F → F
  | none, _ => none
  | _, none => none
  | some a, some b =>
    if (a = ⊤ ∨ a = ⊥) ∧ (b = ⊤ ∨ b = ⊥) then none
    else if b = ⊤ ∨ b = ⊥ then some 0
    else if a = 0 ∧ b = 0 then none
    else if b = 0 then (if 0 < a then some ⊤ else some ⊥)
    else if a = ⊤ then (if 0 < b then some ⊤ else some ⊥)
    else if a = ⊥ then (if 0 < b then some ⊥ else some ⊤)
    else some ((a.toReal / b.toReal : ℝ) : EReal)

/-- IEEE `f64::ln`: `ln 0 = -∞`, `ln x` for negative or NaN input is NaN,
`ln ∞ = ∞`. -/
noncomputable def fln : F → F
  | none => none
  | some x =>
    if x = ⊥ then none
    else if x < 0 then none
    else if x = 0 then some ⊥
    else if x = ⊤ then some ⊤
    else some ((Real.log x.toReal : ℝ) : EReal)

/-- IEEE `f64::sqrt`: NaN on negative or NaN input, `∞` on `∞`. -/
noncomputable def fsqrt : F → F
  | none => none
  | some x =>
    if x < 0 then none
    else if x = ⊤ then some ⊤
    else some ((Real.sqrt x.toReal : ℝ) : EReal)

/-- IEEE `f64::sin`: NaN on infinite or NaN input. -/
noncomputable def fsin : F → F
  | none => none
  | some x =>
    if x = ⊤ ∨ x = ⊥ then none
    else some ((Real.sin x.toReal : ℝ) : EReal)

/-- Rust `f64::min`: if one argument is NaN the other is returned. -/
noncomputable def fmin : F → F → F
  | none, b => b
  | a, none => a
  | some a, some b => some (min a b)

/-- Rust `f64::max`: if one argument is NaN the other is returned. -/
noncomputable def fmax : F → F → F
  | none, b => b
  | a, none => a
  | some a, some b => some (max a b)

/-- `RustAnalyzer::calculate_maintainability_index`
(`src/analyzers/rust/mod.rs`): the classical maintainability-index formula
on a Halstead-volume approximation `loc * 3`, scaled to `[0, 100]` by
`(mi * 100 / 171).min(100).max(0)`. -/
noncomputable def calculate_maintainability_index
    (loc comment_lines complexity : ℕ) : F :=
  let halstead_volume := fmul (fofNat loc) (creal 3)
  let comment_ratio : F :=
    if 0 < loc then fdiv (fofNat comment_lines) (fofNat loc) else creal 0
  let mi :=
    fadd
      (fsub
        (fsub
          (fsub (creal 171) (fmul (creal 5.2) (fln halstead_volume)))
          (fmul (creal 0.23) (fofNat complexity)))
        (fmul (creal 16.2) (fln (fofNat loc))))
      (fmul (creal 50) (fsin (fsqrt (fmul (creal 2.4) comment_ratio))))
  fmax (fmin (fdiv (fmul mi (creal 100)) (creal 171)) (creal 100)) (creal 0)

/-! ## Reference resolver

`RustAnalyzer::resolve_import_path` (`src/analyzers/rust/mod.rs`).  The
filesystem is an oracle pair: `ex` is `Path::exists` and `rd` is
`fs::read_to_string` (`none` for a read error).  Everything else mirrors
the source line by line. -/

/-- The built-in namespace names checked first: `["std", "core", "alloc"]`. -/
def reservedStd : List Str := [lit "std", lit "core", lit "alloc"]

/-- The upward walk looking for a `Cargo.toml`:
`while current_dir.starts_with(project_root) { ... }` with
`current_dir = current_dir.parent()` steps.  Structural recursion over the
reversed component list (each step drops the last component). -/
def findCargoAux (ex : Path → Bool) (project_root : Path) (ab : Bool) :
    List Str → Option Path
  | [] =>
    let dir : Path := ⟨ab, []⟩
    if pathStartsWith dir project_root then
      let cargo := pathJoin dir (lit "Cargo.toml")
      if ex cargo then some cargo else none
    else none
  | c :: rest =>
    let dir : Path := ⟨ab, (c :: rest).reverse⟩
    if pathStartsWith dir project_root then
      let cargo := pathJoin dir (lit "Cargo.toml")
      if ex cargo then some cargo
      else findCargoAux ex project_root ab rest
    else none

/-- The `Cargo.toml` found by walking up from `dir` while it stays under
`project_root`; `none` if the walk exhausts the path or leaves the root. -/
def findCargoToml (ex : Path → Bool) (project_root dir : Path) : Option Path :=
  findCargoAux ex project_root dir.abs dir.comps.reverse

/-- The `Cargo.toml` location used by `resolve_import_path`: the walk
starts at the source file's parent directory. -/
def cargoOf (ex : Path → Bool) (project_root source_path : Path) :
    Option Path :=
  findCargoToml ex project_root ((pathParent source_path).getD emptyPath)

/-- The external-crate text check: the manifest content contains
`name = "<first>"` or `"<first> ` (a plain substring check, not a parse). -/
def isExternalDep (rd : Path → Option Str) (cargo_toml_path : Option Path)
    (first : Str) : Bool :=
  match cargo_toml_path with
  | some cargo_path =>
    match rd cargo_path with
    | some content =>
      strContains content (lit "name = \"" ++ first ++ lit "\"")
        || strContains content (lit "\"" ++ first ++ lit " ")
    | none => false
  | none => false

/-- The two candidate paths for a `self::` import: `<dir>/<mod>.rs` and
`<dir>/<mod>/mod.rs` under the source file's own directory.
`import_path.drop 6` is `replacen("self::", "", 1)` given the
`starts_with("self::")` guard. -/
def selfCandidates (source_dir : Path) (import_path : Str) : List Path :=
  let module_path := replaceDColonSlash (import_path.drop 6)
  [pathJoin source_dir (module_path ++ lit ".rs"),
   pathJoin (pathJoin source_dir module_path) (lit "mod.rs")]

/-- The candidate paths for a `super::` import, against the parent of the
source file's directory; empty when that directory has no parent.
`import_path.drop 7` is `replacen("super::", "", 1)` given the guard. -/
def superCandidates (source_dir : Path) (import_path : Str) : List Path :=
  let module_path := replaceDColonSlash (import_path.drop 7)
  match pathParent source_dir with
  | some parent_dir =>
      [pathJoin parent_dir (module_path ++ lit ".rs"),
       pathJoin (pathJoin parent_dir module_path) (lit "mod.rs")]
  | none => []

/-- The candidate paths for a `crate::` import, under `<crate_root>/src`.
`import_path.drop 7` is `replacen("crate::", "", 1)` given the guard. -/
def crateCandidates (crate_root : Path) (import_path : Str) : List Path :=
  let module_path := replaceDColonSlash (import_path.drop 7)
  [pathJoin (pathJoin crate_root (lit "src")) (module_path ++ lit ".rs"),
   pathJoin (pathJoin (pathJoin crate_root (lit "src")) module_path)
     (lit "mod.rs")]

/-- The candidate paths for an unprefixed import: the crate entry files,
then `<first>.rs`, `<first>/mod.rs`, and for multi-segment paths the fully
joined nested path in both file- and directory-module forms. -/
def plainCandidates (crate_root : Path) (parts : List Str) : List Path :=
  let src := pathJoin crate_root (lit "src")
  [pathJoin src (lit "lib.rs"),
   pathJoin src (lit "main.rs"),
   pathJoin src (parts.headD [] ++ lit ".rs"),
   pathJoin (pathJoin src (parts.headD [])) (lit "mod.rs")]
  ++ (if parts.length > 1 then
        let full := List.intercalate (lit "/") parts
        [pathJoin src (full ++ lit ".rs"),
         pathJoin (pathJoin src full) (lit "mod.rs")]
      else [])

/-- `RustAnalyzer::resolve_import_path`, over the filesystem oracles. -/
def resolve_import_path (ex : Path → Bool) (rd : Path → Option Str)
    (import_path : Str) (source_path project_root : Path) :
    Except Str Path :=
  if (splitDColon import_path).headD [] ∈ reservedStd then
    .ok (pathJoin (pathJoin (pathFrom (lit "rust")) (lit "std"))
          (replaceDColonSlash import_path))
  else
    let cargo_toml_path := cargoOf ex project_root source_path
    let crate_root : Path :=
      match cargo_toml_path with
      | some cp => (pathParent cp).getD project_root
      | none => project_root
    let parts := splitDColon import_path
    if parts = [] then .error (lit "Invalid import path")
    else
      if isExternalDep rd cargo_toml_path (parts.headD []) then
        .ok (pathJoin (pathFrom (lit "external"))
              (List.intercalate (lit "/") parts))
      else
        let potential_paths : List Path :=
          if (lit "crate::").isPrefixOf import_path then
            crateCandidates crate_root import_path
          else if (lit "self::").isPrefixOf import_path
              || (lit "super::").isPrefixOf import_path then
            let source_dir := (pathParent source_path).getD emptyPath
            if (lit "self::").isPrefixOf import_path then
              selfCandidates source_dir import_path
            else
              superCandidates source_dir import_path
          else
            plainCandidates crate_root parts
        match potential_paths.find? ex with
        | some p => .ok p
        | none =>
          .ok (pathJoin (pathJoin crate_root (lit "src"))
                (List.intercalate (lit "/") parts ++ lit ".rs"))

/-! ## Dependencies and the code graph

Data model from `src/analyzers/common/mod.rs`.  `HashMap`/`HashSet` values
are modelled as lists (association lists for maps); the uniform edge
weight `1.0` is represented exactly in `ℚ`. -/

/-- `DependencyType`. -/
inductive DependencyType where
  | Import
  | FunctionCall
  | Inheritance
  | Implementation
  | VariableUsage
  | TypeUsage
deriving DecidableEq

/-- `format!("{:?}", dependency_type)`. -/
def depTypeLabel : DependencyType → Str
  | .Import => lit "Import"
  | .FunctionCall => lit "FunctionCall"
  | .Inheritance => lit "Inheritance"
  | .Implementation => lit "Implementation"
  | .VariableUsage => lit "VariableUsage"
  | .TypeUsage => lit "TypeUsage"

/-- `Dependency`. -/
structure Dependency where
  source : Path
  target : Path
  dependency_type : DependencyType
  line : Option Nat
  info : Option Str
deriving DecidableEq

/-- `GraphNode` (the `properties` map is always created empty). -/
structure GraphNode where
  id : Path
  label : Str
  node_type : Str
  properties : List (Str × Str)
deriving DecidableEq

/-- `GraphEdge`. -/
structure GraphEdge where
  source : Path
  target : Path
  label : Str
  edge_type : DependencyType
  weight : ℚ
  properties : List (Str × Str)
deriving DecidableEq

/-- `CodeGraph`: nodes keyed by file path, plus an edge list. -/
structure CodeGraph where
  nodes : List (Path × GraphNode)
  edges : List GraphEdge
deriving DecidableEq

/-- `HashSet::insert` on the list model: add if absent. -/
def hsInsert (s : List Path) (p : Path) : List Path :=
  if p ∈ s then s else s ++ [p]

/-- The `file_set` built by `CodeGraph::new`: every dependency's source and
target, deduplicated. -/
def fileSetOf (deps : List Dependency) : List Path :=
  deps.foldl (fun s d => hsInsert (hsInsert s d.source) d.target) []

/-- `CodeGraph::new`. -/
def CodeGraph.new (deps : List Dependency) : CodeGraph where
  nodes :=
    (fileSetOf deps).map fun f =>
      (f, { id := f, label := fileNameOf f, node_type := lit "File",
            properties := [] })
  edges :=
    deps.map fun d =>
      { source := d.source, target := d.target,
        label := depTypeLabel d.dependency_type,
        edge_type := d.dependency_type, weight := 1, properties := [] }

/-- `CodeGraph::get_outgoing_dependencies`: linear scan of the edge list. -/
def CodeGraph.get_outgoing_dependencies (g : CodeGraph) (file : Path) :
    List GraphEdge :=
  g.edges.filter (fun e => decide (e.source = file))

/-- `CodeGraph::get_incoming_dependencies`: linear scan of the edge list. -/
def CodeGraph.get_incoming_dependencies (g : CodeGraph) (file : Path) :
    List GraphEdge :=
  g.edges.filter (fun e => decide (e.target = file))

/-- The path-reconstruction loop of `get_dependency_path`: walk the
predecessor map from `current` back to `source`, collecting edges, then
reverse.  A missing predecessor entry propagates `none` (the `?`
operator).  The Rust loop is unbounded; `pred.length` fuel is enough
because the algorithm only ever inserts fresh keys, each pointing one step
closer to the source. -/
def reconstruct (pred : List (Path × Path × GraphEdge)) (source : Path) :
    Nat → Path → List GraphEdge → Option (List GraphEdge)
  | 0, current, acc => if current = source then some acc.reverse else none
  | n + 1, current, acc =>
    if current = source then some acc.reverse
    else
      match pred.find? (fun x => decide (x.1 = current)) with
      | none => none
      | some q => reconstruct pred source n q.2.1 (acc ++ [q.2.2])

/-- BFS working state: `(visited, queue, predecessor map)`. -/
abbrev BfsState := List Path × List Path × List (Path × Path × GraphEdge)

/-- The body of the `for edge in ...` loop of `get_dependency_path`: push
an unvisited edge target, marking it visited and recording its
predecessor. -/
def bfsPush (current : Path) (st : BfsState) (e : GraphEdge) : BfsState :=
  if e.target ∈ st.1 then st
  else (e.target :: st.1, st.2.1 ++ [e.target], st.2.2 ++ [(e.target, current, e)])

/-- One BFS expansion step: fold `bfsPush` over the outgoing edges of
`current`. -/
def bfsStep (g : CodeGraph) (current : Path) (st : BfsState) : BfsState :=
  (g.get_outgoing_dependencies current).foldl (bfsPush current) st

/-- Number of distinct edge targets not yet visited (termination measure
helper; not part of the source). -/
def unvis (edges : List GraphEdge) (visited : List Path) : Nat :=
  (((edges.map (fun e => e.target)).dedup).filter
      (fun t => decide (t ∉ visited))).length

theorem filter_not_mem_cons_length {l : List Path} (hnd : l.Nodup) {t : Path}
    (ht : t ∈ l) {vis : List Path} (hv : t ∉ vis) :
    ((l.filter (fun x => decide (x ∉ (t :: vis)))).length) + 1
      = (l.filter (fun x => decide (x ∉ vis))).length := by
  induction l with
  | nil => cases ht
  | cons a l ih =>
    by_cases hat : a = t
    · subst hat
      have hnotin : a ∉ l := (List.nodup_cons.mp hnd).1
      have hsame : l.filter (fun x => decide (x ∉ (a :: vis)))
          = l.filter (fun x => decide (x ∉ vis)) :=
        List.filter_congr (fun x hx => by
          have hne : x ≠ a := fun h => hnotin (h ▸ hx)
          simp [List.mem_cons, hne])
      have h1 : (decide (a ∉ (a :: vis))) = false := by simp
      have h2 : (decide (a ∉ vis)) = true := by simpa using hv
      simp only [List.filter_cons, h1, h2, if_false, if_true, hsame,
        Bool.false_eq_true, List.length_cons]
    · have hmem : t ∈ l := by
        rcases List.mem_cons.mp ht with h | h
        · exact absurd h.symm hat
        · exact h
      have hnd' : l.Nodup := (List.nodup_cons.mp hnd).2
      have hrec := ih hnd' hmem
      by_cases hav : a ∈ vis
      · have h1 : (decide (a ∉ (t :: vis))) = false := by simp [hav]
        have h2 : (decide (a ∉ vis)) = false := by simp [hav]
        simp only [List.filter_cons, h1, h2, if_false, Bool.false_eq_true]
        exact hrec
      · have h1 : (decide (a ∉ (t :: vis))) = true := by simp [hat, hav]
        have h2 : (decide (a ∉ vis)) = true := by simp [hav]
        simp only [List.filter_cons, h1, h2, if_true, List.length_cons]
        omega

/-- Each `bfsPush` either leaves the state alone or lengthens the queue by
one while reducing the unvisited count by one. -/
theorem bfsPush_spec (edges : List GraphEdge) (current : Path)
    (st : BfsState) (e : GraphEdge) (he : e ∈ edges) :
    ∃ k, (bfsPush current st e).2.1.length = st.2.1.length + k
      ∧ unvis edges st.1 = unvis edges (bfsPush current st e).1 + k := by
  unfold bfsPush
  by_cases hv : e.target ∈ st.1
  · exact ⟨0, by simp [hv]⟩
  · refine ⟨1, by simp [hv], ?_⟩
    simp only [hv, if_false]
    have hmem : e.target ∈ (edges.map (fun e => e.target)).dedup := by
      rw [List.mem_dedup]
      exact List.mem_map.mpr ⟨e, he, rfl⟩
    have := filter_not_mem_cons_length (List.nodup_dedup _)
      hmem hv
    unfold unvis
    omega

/-- Folding `bfsPush` over a sublist of the edges: the queue grows by
exactly the amount the unvisited count shrinks. -/
theorem bfsFold_spec (edges : List GraphEdge) (current : Path) :
    ∀ (l : List GraphEdge) (st : BfsState), (∀ e ∈ l, e ∈ edges) →
    ∃ k, (l.foldl (bfsPush current) st).2.1.length = st.2.1.length + k
      ∧ unvis edges st.1 = unvis edges (l.foldl (bfsPush current) st).1 + k := by
  intro l
  induction l with
  | nil => exact fun st _ => ⟨0, by simp⟩
  | cons e l ih =>
    intro st hl
    obtain ⟨k₁, hq₁, hu₁⟩ :=
      bfsPush_spec edges current st e (hl e (List.mem_cons_self _ _))
    obtain ⟨k₂, hq₂, hu₂⟩ := ih (bfsPush current st e)
      (fun x hx => hl x (List.mem_cons_of_mem _ hx))
    exact ⟨k₁ + k₂, by simp only [List.foldl_cons]; omega,
      by simp only [List.foldl_cons]; omega⟩

/-- The breadth-first search loop of `CodeGraph::get_dependency_path`.
Termination: each iteration pops one queue entry and pushes one entry per
newly visited node, and only finitely many targets can ever become
visited. -/
def bfsLoop (g : CodeGraph) (source target : Path) :
    List Path → List Path → List (Path × Path × GraphEdge) →
    Option (List GraphEdge)
  | [], _, _ => none
  | current :: qrest, visited, pred =>
    if current = target then
      reconstruct pred source pred.length current []
    else
      let st := bfsStep g current (visited, qrest, pred)
      bfsLoop g source target st.2.1 st.1 st.2.2
termination_by queue visited _ =>
  (g.edges.length + 2) * unvis g.edges visited + queue.length
decreasing_by
  obtain ⟨k, hq, hu⟩ := bfsFold_spec g.edges current
    (g.get_outgoing_dependencies current) (visited, qrest, pred)
    (fun e he => List.mem_of_mem_filter he)
  simp only [bfsStep] at *
  have hk : k ≤ (g.edges.length + 2) * k := Nat.le_mul_of_pos_left k (by omega)
  simp only [List.length_cons]
  rw [hu, Nat.mul_add]
  omega

/-- `CodeGraph::get_dependency_path`: BFS from `source`, with the queue and
visited set seeded with `source` and an empty predecessor map. -/
def CodeGraph.get_dependency_path (g : CodeGraph) (source target : Path) :
    Option (List GraphEdge) :=
  bfsLoop g source target [source] [source] []

/-! ## Per-file analysis records (`src/analyzers/common/mod.rs`) -/

/-- `FunctionMetrics`. -/
structure FunctionMetrics where
  loc : Nat
  complexity : Nat
  parameter_count : Nat
  cognitive_complexity : Nat
deriving DecidableEq

/-- `Parameter`. -/
structure Parameter where
  name : Str
  param_type : Option Str
  default_value : Option Str
  position : Nat
deriving DecidableEq

/-- `Function`. -/
structure Function where
  name : Str
  signature : Str
  start_line : Nat
  end_line : Nat
  body : Option Str
  return_type : Option Str
  parameters : List Parameter
  is_public : Bool
  metrics : FunctionMetrics
deriving DecidableEq

/-- `ClassMetrics` (cohesion, an `f64`, in the float model). -/
structure ClassMetrics where
  loc : Nat
  method_count : Nat
  property_count : Nat
  inheritance_depth : Nat
  cohesion : F

/-- `Variable`. -/
structure Variable where
  name : Str
  var_type : Option Str
  line : Nat
  is_public : Bool
  init_value : Option Str
deriving DecidableEq

/-- `Class`. -/
structure Class where
  name : Str
  start_line : Nat
  end_line : Nat
  methods : List Function
  properties : List Variable
  base_classes : List Str
  is_public : Bool
  metrics : ClassMetrics

/-- `Import`. -/
structure Import where
  path : Str
  name : Option Str
  line : Nat
  is_relative : Bool
deriving DecidableEq

/-- `CodeMetrics` (the maintainability index is an `f64`). -/
structure CodeMetrics where
  loc : Nat
  comment_lines : Nat
  function_count : Nat
  class_count : Nat
  import_count : Nat
  variable_count : Nat
  complexity : Nat
  maintainability_index : F

/-- `FileAnalysis` (the Rust field `variables` is spelled `vars` because
`variables` is reserved in Lean). -/
structure FileAnalysis where
  path : Path
  language : Str
  content : Option Str
  functions : List Function
  classes : List Class
  vars : List Variable
  imports : List Import
  metrics : CodeMetrics

/-- `AnalysisResult` (the optional project structure is abstracted to a
unit marker, since no claim touches it). -/
structure AnalysisResult where
  file_analyses : List FileAnalysis
  dependencies : List Dependency
  graph : CodeGraph
  project_structure : Option Unit

/-! ## The Rust analyzer's `analyze_file` (`src/analyzers/rust/mod.rs`)

Tree-sitter parsing and the query-based extractors operate on a foreign
concrete-syntax-tree type, so the parse result and the three extractors
are oracles abstracted over an arbitrary tree type; the rest (reading,
error plumbing, line/comment counting, the metric aggregation and the
constant `classes`/`class_count` fields) follows the source. -/

/-- `RustAnalyzer::analyze_file`, abstracted over the tree-sitter tree type
and the parse/extraction oracles. -/
noncomputable def rust_analyze_file {Tree : Type}
    (readF : Path → Option Str)
    (parseF : Str → Option Tree)
    (extractFns : Tree → Str → Except Str (List Function))
    (extractImps : Tree → Str → Except Str (List Import))
    (extractVars : Tree → Str → Except Str (List Variable))
    (path : Path) : Except Str FileAnalysis :=
  match readF path with
  | none => .error (lit "Failed to read file")
  | some content =>
    match parseF content with
    | none => .error (lit "Failed to parse file")
    | some tree =>
      match extractFns tree content with
      | .error e => .error e
      | .ok functions =>
        match extractImps tree content with
        | .error e => .error e
        | .ok imports =>
          match extractVars tree content with
          | .error e => .error e
          | .ok vs =>
            let loc := (linesOf content).length
            let comment_lines :=
              ((linesOf content).filter (fun l =>
                (lit "//").isPrefixOf (trimStr l)
                  || (lit "/*").isPrefixOf (trimStr l))).length
            let complexity :=
              (functions.map (fun f => f.metrics.complexity)).sum
            let maintainability_index :=
              calculate_maintainability_index loc comment_lines complexity
            .ok
              { path := path
                language := lit "Rust"
                content := some content
                functions := functions
                classes := []
                vars := vs
                imports := imports
                metrics :=
                  { loc := loc
                    comment_lines := comment_lines
                    function_count := functions.length
                    class_count := 0
                    import_count := imports.length
                    variable_count := vs.length
                    complexity := complexity
                    maintainability_index := maintainability_index } }

/-! ## The orchestrator (`src/analyzers/mod.rs`)

`Analyzer::analyze_files` drives per-file analysis sequentially; progress
events are fire-and-forget side effects with no influence on the result,
so they are omitted from the pure embedding.  Per-language analyzers are
the two per-file functions the orchestrator calls. -/

/-- A registered language analyzer, as seen by the orchestrator. -/
structure LangAnalyzer where
  analyzeFile : Path → Except Str FileAnalysis
  extractDeps : Path → Except Str (List Dependency)

/-- `Analyzer::analyze_files`: fold over the file batch, skipping files
with no matching analyzer and swallowing (logging) per-file errors, then
build the graph and assemble the result. -/
def analyze_files (getAnalyzer : Path → Option LangAnalyzer)
    (files : List Path) : Except Str AnalysisResult :=
  let st := files.foldl
    (fun (acc : List FileAnalysis × List Dependency) path =>
      match getAnalyzer path with
      | none => acc
      | some analyzer =>
        let acc1 :=
          match analyzer.analyzeFile path with
          | .ok file_analysis => (acc.1 ++ [file_analysis], acc.2)
          | .error _ => acc
        match analyzer.extractDeps path with
        | .ok file_deps => (acc1.1, acc1.2 ++ file_deps)
        | .error _ => acc1)
    ([], [])
  .ok { file_analyses := st.1, dependencies := st.2,
        graph := CodeGraph.new st.2, project_structure := none }

/-! ## Claim C1: resolver totality -/

/-- `str::split` always yields at least one segment, so the
`parts.is_empty()` error branch of `resolve_import_path` is dead code. -/
theorem splitDColon_ne_nil (s : Str) : splitDColon s ≠ [] := by
  rw [splitDColon.eq_def]
  split
  · simp
  · simp
  · split <;> simp

/-- C1 (confirmed).  Resolver totality: for every reference string,
referencing source path, project root and filesystem behaviour,
`resolve_import_path` returns `Ok` with some target path; the
invalid-import-path error branch is unreachable because splitting on
`"::"` always yields at least one segment. -/
theorem C1_resolver_total (ex : Path → Bool) (rd : Path → Option Str)
    (import_path : Str) (source_path project_root : Path) :
    ∃ p, resolve_import_path ex rd import_path source_path project_root
      = .ok p := by
  simp only [resolve_import_path]
  split
  · exact ⟨_, rfl⟩
  · split
    · exact absurd ‹_› (splitDColon_ne_nil import_path)
    · split
      · exact ⟨_, rfl⟩
      · split
        · exact ⟨_, rfl⟩
        · exact ⟨_, rfl⟩

/-! ## Claim C6: standard-library prefix -/

/-- C6 (confirmed).  Any reference whose first `"::"` segment is one of
`std`, `core`, `alloc` resolves to the synthetic `rust/std/...` path built
from the reference's segments — for every filesystem behaviour (the
right-hand side never consults the oracles). -/
theorem C6_std_prefix (ex : Path → Bool) (rd : Path → Option Str)
    (import_path : Str) (source_path project_root : Path)
    (h : (splitDColon import_path).headD [] ∈ reservedStd) :
    resolve_import_path ex rd import_path source_path project_root =
      .ok (pathJoin (pathJoin (pathFrom (lit "rust")) (lit "std"))
            (replaceDColonSlash import_path)) := by
  simp only [resolve_import_path, if_pos h]

/-- Witness for C6 at the concrete reference `std::fs::File`. -/
theorem C6_std_prefix_witness :
    ((splitDColon (lit "std::fs::File")).headD [] ∈ reservedStd) ∧
    resolve_import_path (fun _ => false) (fun _ => none)
        (lit "std::fs::File") emptyPath emptyPath =
      .ok (pathJoin (pathJoin (pathFrom (lit "rust")) (lit "std"))
            (replaceDColonSlash (lit "std::fs::File"))) :=
  ⟨by decide, C6_std_prefix _ _ _ _ _ (by decide)⟩

/-! ## Claim C2: graph node/edge invariants -/

theorem mem_hsInsert {s : List Path} {p q : Path} :
    q ∈ hsInsert s p ↔ q ∈ s ∨ q = p := by
  unfold hsInsert
  split
  · rename_i hp
    constructor
    · exact Or.inl
    · rintro (h | rfl)
      · exact h
      · exact hp
  · simp [List.mem_append]

theorem mem_fileSet_foldl (deps : List Dependency) (init : List Path)
    (p : Path) :
    p ∈ deps.foldl
        (fun s d => hsInsert (hsInsert s d.source) d.target) init
      ↔ p ∈ init ∨ ∃ d ∈ deps, p = d.source ∨ p = d.target := by
  induction deps generalizing init with
  | nil => simp
  | cons d deps ih =>
    simp only [List.foldl_cons, ih, mem_hsInsert, List.mem_cons]
    constructor
    · rintro (((h | h) | h) | ⟨d', hd', h⟩)
      · exact Or.inl h
      · exact Or.inr ⟨d, Or.inl rfl, Or.inl h⟩
      · exact Or.inr ⟨d, Or.inl rfl, Or.inr h⟩
      · exact Or.inr ⟨d', Or.inr hd', h⟩
    · rintro (h | ⟨d', hd' | hd', h⟩)
      · exact Or.inl (Or.inl (Or.inl h))
      · subst hd'
        rcases h with h | h
        · exact Or.inl (Or.inl (Or.inr h))
        · exact Or.inl (Or.inr h)
      · exact Or.inr ⟨d', hd', h⟩

/-- C2 (confirmed).  The graph built by `CodeGraph::new` has node set
exactly the deduplicated union of the dependencies' sources and targets,
and one edge per dependency (in order) carrying that dependency's source,
target and type, with weight `1.0`. -/
theorem C2_graph_invariants (deps : List Dependency) :
    (∀ p, p ∈ ((CodeGraph.new deps).nodes.map Prod.fst)
        ↔ ∃ d ∈ deps, p = d.source ∨ p = d.target)
    ∧ (CodeGraph.new deps).edges.length = deps.length
    ∧ List.Forall₂ (fun (e : GraphEdge) (d : Dependency) =>
        e.source = d.source ∧ e.target = d.target
          ∧ e.edge_type = d.dependency_type ∧ e.weight = 1)
        (CodeGraph.new deps).edges deps := by
  refine ⟨?_, ?_, ?_⟩
  · intro p
    have hmap : ((CodeGraph.new deps).nodes.map Prod.fst) = fileSetOf deps := by
      simp only [CodeGraph.new, List.map_map]
      induction fileSetOf deps with
      | nil => rfl
      | cons a l ih => simpa using ih
    rw [hmap]
    exact mem_fileSet_foldl deps [] p |>.trans (by simp)
  · simp [CodeGraph.new]
  · simp only [CodeGraph.new]
    rw [List.forall₂_map_left_iff]
    exact List.forall₂_same.mpr (fun d _ => ⟨rfl, rfl, rfl, rfl⟩)

/-! ## Claim C9: the trivial self path -/

/-- C9 (confirmed).  `get_dependency_path(p, p)` is `Some([])` for every
graph and every path, even when `p` is not a node of the graph: BFS pops
`p` first, sees `current == target`, and the reconstruction loop exits
immediately. -/
theorem C9_self_path (g : CodeGraph) (p : Path) :
    g.get_dependency_path p p = some [] := by
  unfold CodeGraph.get_dependency_path
  rw [bfsLoop]
  simp [reconstruct]

/-! ## Claim C3: BFS shortest-path correctness -/

/-- Reachability along the directed edges of the graph. -/
inductive Reaches (edges : List GraphEdge) : Path → Path → Prop where
  | refl (p : Path) : Reaches edges p p
  | step {a c : Path} (e : GraphEdge) (he : e ∈ edges) (hs : e.source = a)
      (h : Reaches edges e.target c) : Reaches edges a c

/-- Reachability extends along one more edge at the far end. -/
theorem Reaches.extend {edges : List GraphEdge} {a b : Path}
    (h : Reaches edges a b) (e : GraphEdge) (he : e ∈ edges) :
    e.source = b → Reaches edges a e.target := by
  induction h with
  | refl p => exact fun hs => .step e he hs (.refl _)
  | step e' he' hs' _ ih => exact fun hs => .step e' he' hs' (ih hs)

/-- Everything the expansion fold puts on the queue was on it before or is
the target of one of the folded edges. -/
theorem bfsFold_queue_mem (current : Path) :
    ∀ (l : List GraphEdge) (st : BfsState) (q : Path),
      q ∈ (l.foldl (bfsPush current) st).2.1 →
      q ∈ st.2.1 ∨ ∃ e ∈ l, q = e.target := by
  intro l
  induction l with
  | nil => exact fun st q h => Or.inl h
  | cons e l ih =>
    intro st q h
    rcases ih (bfsPush current st e) q h with h' | ⟨e', he', rfl⟩
    · unfold bfsPush at h'
      split at h'
      · exact Or.inl h'
      · rcases List.mem_append.mp h' with h'' | h''
        · exact Or.inl h''
        · exact Or.inr ⟨e, List.mem_cons_self _ _, List.mem_singleton.mp h''⟩
    · exact Or.inr ⟨e', List.mem_cons_of_mem _ he', rfl⟩

/-- If every queued node is reachable from `source` and `target` is not,
the BFS loop returns `none`. -/
theorem bfsLoop_unreachable (g : CodeGraph) (source target : Path)
    (hnr : ¬ Reaches g.edges source target) :
    ∀ queue visited pred,
      (∀ q ∈ queue, Reaches g.edges source q) →
      bfsLoop g source target queue visited pred = none := by
  intro queue visited pred
  induction queue, visited, pred using bfsLoop.induct g source target with
  | case1 visited pred => intro _; rw [bfsLoop]
  | case2 qrest visited pred =>
    intro hinv
    exact absurd (hinv target (List.mem_cons_self _ _)) hnr
  | case3 current qrest visited pred hcur st ih =>
    intro hinv
    rw [bfsLoop.eq_def]
    simp only [if_neg hcur]
    apply ih
    intro q hq
    rcases bfsFold_queue_mem current _ (visited, qrest, pred) q hq
      with h | ⟨e, he, rfl⟩
    · exact hinv q (List.mem_cons_of_mem _ h)
    · have hmem : e ∈ g.edges := List.mem_of_mem_filter he
      have hsrc : e.source = current := by
        have h' := List.of_mem_filter he
        exact of_decide_eq_true h'
      exact (hinv current (List.mem_cons_self _ _)).extend e hmem hsrc

/-- The two-hop chain `A → B → C` is found by BFS, in order. -/
theorem bfs_two_hop (A B C : Path) (t1 t2 : DependencyType)
    (l1 l2 : Option Nat) (i1 i2 : Option Str)
    (hAB : A ≠ B) (hAC : A ≠ C) (hBC : B ≠ C) :
    (CodeGraph.new [⟨A, B, t1, l1, i1⟩, ⟨B, C, t2, l2, i2⟩]).get_dependency_path
        A C
      = some [⟨A, B, depTypeLabel t1, t1, 1, []⟩,
              ⟨B, C, depTypeLabel t2, t2, 1, []⟩] := by
  have hBA : B ≠ A := hAB.symm
  have hCA : C ≠ A := hAC.symm
  have hCB : C ≠ B := hBC.symm
  set e1 : GraphEdge := ⟨A, B, depTypeLabel t1, t1, 1, []⟩ with he1
  set e2 : GraphEdge := ⟨B, C, depTypeLabel t2, t2, 1, []⟩ with he2
  set g := CodeGraph.new [⟨A, B, t1, l1, i1⟩, ⟨B, C, t2, l2, i2⟩] with hgdef
  have hedges : g.edges = [e1, e2] := by
    simp [hgdef, CodeGraph.new, he1, he2]
  have hout1 : g.get_outgoing_dependencies A = [e1] := by
    simp [CodeGraph.get_outgoing_dependencies, hedges, he1, he2, hBA]
  have hout2 : g.get_outgoing_dependencies B = [e2] := by
    simp [CodeGraph.get_outgoing_dependencies, hedges, he1, he2, hAB]
  have hstep1 : bfsStep g A ([A], [], []) = ([B, A], [B], [(B, A, e1)]) := by
    simp [bfsStep, hout1, bfsPush, he1, hBA]
  have hstep2 : bfsStep g B ([B, A], [], [(B, A, e1)])
      = ([C, B, A], [C], [(B, A, e1), (C, B, e2)]) := by
    simp [bfsStep, hout2, bfsPush, he2, hCB, hCA]
  have h1 : bfsLoop g A C [A] [A] [] = bfsLoop g A C [B] [B, A] [(B, A, e1)] := by
    rw [bfsLoop.eq_def]
    simp [hAC, hstep1]
  have h2 : bfsLoop g A C [B] [B, A] [(B, A, e1)]
      = bfsLoop g A C [C] [C, B, A] [(B, A, e1), (C, B, e2)] := by
    rw [bfsLoop.eq_def]
    simp [hBC, hstep2]
  have h3 : bfsLoop g A C [C] [C, B, A] [(B, A, e1), (C, B, e2)]
      = some [e1, e2] := by
    rw [bfsLoop.eq_def]
    simp [reconstruct, hCA, hBA, hBC]
  unfold CodeGraph.get_dependency_path
  rw [h1, h2, h3]

/-- C3 (confirmed).  (1) For distinct `A`, `B`, `C` and the dependency
list `[A→B, B→C]`, `get_dependency_path(A, C)` returns exactly the edge
sequence `[A→B, B→C]`; (2) for every graph, whenever `target` is
unreachable from `source` along the edges, `get_dependency_path` returns
`none`. -/
theorem C3_bfs_correctness :
    (∀ (A B C : Path) (t1 t2 : DependencyType) (l1 l2 : Option Nat)
        (i1 i2 : Option Str), A ≠ B → A ≠ C → B ≠ C →
      (CodeGraph.new
          [⟨A, B, t1, l1, i1⟩, ⟨B, C, t2, l2, i2⟩]).get_dependency_path A C
        = some [⟨A, B, depTypeLabel t1, t1, 1, []⟩,
                ⟨B, C, depTypeLabel t2, t2, 1, []⟩])
    ∧ (∀ (g : CodeGraph) (source target : Path),
        ¬ Reaches g.edges source target →
        g.get_dependency_path source target = none) :=
  ⟨fun A B C t1 t2 l1 l2 i1 i2 hAB hAC hBC =>
      bfs_two_hop A B C t1 t2 l1 l2 i1 i2 hAB hAC hBC,
   fun g source target hnr =>
      bfsLoop_unreachable g source target hnr [source] [source] []
        (fun q hq => by
          rw [List.mem_singleton.mp hq]
          exact Reaches.refl source)⟩

/-- In a graph with no edges, no distinct node is reachable. -/
theorem not_reaches_nil {s t : Path} (hne : s ≠ t) : ¬ Reaches [] s t :=
  fun h => by
    cases h with
    | refl _ => exact hne rfl
    | step e he _ _ => exact (List.not_mem_nil e) he

/-- Witness for C3: the concrete chain `a → b → c` and an unreachable
pair in the empty graph. -/
theorem C3_bfs_correctness_witness :
    ((⟨false, [lit "a"]⟩ : Path) ≠ ⟨false, [lit "b"]⟩
      ∧ (⟨false, [lit "a"]⟩ : Path) ≠ ⟨false, [lit "c"]⟩
      ∧ (⟨false, [lit "b"]⟩ : Path) ≠ ⟨false, [lit "c"]⟩
      ∧ (CodeGraph.new
          [⟨⟨false, [lit "a"]⟩, ⟨false, [lit "b"]⟩, .Import, none, none⟩,
           ⟨⟨false, [lit "b"]⟩, ⟨false, [lit "c"]⟩, .FunctionCall, none,
             none⟩]).get_dependency_path ⟨false, [lit "a"]⟩
            ⟨false, [lit "c"]⟩
        = some [⟨⟨false, [lit "a"]⟩, ⟨false, [lit "b"]⟩,
                  depTypeLabel .Import, .Import, 1, []⟩,
                ⟨⟨false, [lit "b"]⟩, ⟨false, [lit "c"]⟩,
                  depTypeLabel .FunctionCall, .FunctionCall, 1, []⟩])
    ∧ (CodeGraph.new []).get_dependency_path ⟨false, [lit "a"]⟩
        ⟨false, [lit "c"]⟩ = none :=
  ⟨⟨by decide, by decide, by decide,
    C3_bfs_correctness.1 _ _ _ _ _ _ _ _ _ (by decide) (by decide)
      (by decide)⟩,
   C3_bfs_correctness.2 _ _ _ (not_reaches_nil (by decide))⟩

/-! ## Claim C4: maintainability bounds

Evaluation lemmas for the `f64` model on finite and infinite values. -/

theorem fofNat_eq (n : ℕ) : fofNat n = creal n := rfl

theorem fmul_creal (a b : ℝ) : fmul (creal a) (creal b) = creal (a * b) := by
  unfold fmul creal
  dsimp only
  rw [if_neg, EReal.coe_mul]
  rintro (⟨-, h | h⟩ | ⟨-, h | h⟩) <;>
    first
      | exact EReal.coe_ne_top _ h
      | exact EReal.coe_ne_bot _ h

theorem fadd_creal (a b : ℝ) : fadd (creal a) (creal b) = creal (a + b) := by
  unfold fadd creal
  dsimp only
  rw [if_neg, EReal.coe_add]
  rintro (⟨h, -⟩ | ⟨h, -⟩) <;>
    first
      | exact EReal.coe_ne_top _ h
      | exact EReal.coe_ne_bot _ h

theorem fneg_creal (a : ℝ) : fneg (creal a) = creal (-a) := by
  unfold fneg creal
  dsimp only
  rw [EReal.coe_neg]

theorem fsub_creal (a b : ℝ) : fsub (creal a) (creal b) = creal (a - b) := by
  unfold fsub
  rw [fneg_creal, fadd_creal, sub_eq_add_neg]

theorem fdiv_creal (a b : ℝ) (hb : b ≠ 0) :
    fdiv (creal a) (creal b) = creal (a / b) := by
  unfold fdiv creal
  dsimp only
  rw [if_neg, if_neg, if_neg, if_neg, if_neg, if_neg]
  · rw [EReal.toReal_coe, EReal.toReal_coe]
  · exact EReal.coe_ne_bot a
  · exact EReal.coe_ne_top a
  · exact fun h => hb (EReal.coe_eq_zero.mp h)
  · exact fun h => hb (EReal.coe_eq_zero.mp h.2)
  · rintro (h | h)
    · exact EReal.coe_ne_top _ h
    · exact EReal.coe_ne_bot _ h
  · rintro ⟨-, h | h⟩
    · exact EReal.coe_ne_top _ h
    · exact EReal.coe_ne_bot _ h

theorem fln_creal_pos (a : ℝ) (ha : 0 < a) :
    fln (creal a) = creal (Real.log a) := by
  unfold fln creal
  dsimp only
  rw [if_neg (EReal.coe_ne_bot a), if_neg, if_neg, if_neg
    (EReal.coe_ne_top a), EReal.toReal_coe]
  · exact fun h => ha.ne' (EReal.coe_eq_zero.mp h)
  · rw [EReal.coe_neg']
    exact not_lt.mpr ha.le

theorem fln_creal_zero : fln (creal 0) = some ⊥ := by
  unfold fln creal
  dsimp only
  rw [if_neg (EReal.coe_ne_bot 0), if_neg, if_pos EReal.coe_zero]
  rw [EReal.coe_neg']
  exact lt_irrefl 0

theorem fsqrt_creal (a : ℝ) (ha : 0 ≤ a) :
    fsqrt (creal a) = creal (Real.sqrt a) := by
  unfold fsqrt creal
  dsimp only
  rw [if_neg, if_neg (EReal.coe_ne_top a), EReal.toReal_coe]
  rw [EReal.coe_neg']
  exact not_lt.mpr ha

theorem fsin_creal (a : ℝ) : fsin (creal a) = creal (Real.sin a) := by
  unfold fsin creal
  dsimp only
  rw [if_neg, EReal.toReal_coe]
  rintro (h | h)
  · exact EReal.coe_ne_top _ h
  · exact EReal.coe_ne_bot _ h

theorem fmin_creal (a b : ℝ) : fmin (creal a) (creal b) = creal (min a b) := by
  unfold fmin creal
  dsimp only
  rcases le_total a b with h | h
  · rw [min_eq_left (EReal.coe_le_coe_iff.mpr h), min_eq_left h]
  · rw [min_eq_right (EReal.coe_le_coe_iff.mpr h), min_eq_right h]

theorem fmax_creal (a b : ℝ) : fmax (creal a) (creal b) = creal (max a b) := by
  unfold fmax creal
  dsimp only
  rcases le_total a b with h | h
  · rw [max_eq_right (EReal.coe_le_coe_iff.mpr h), max_eq_right h]
  · rw [max_eq_left (EReal.coe_le_coe_iff.mpr h), max_eq_left h]

theorem fmul_creal_bot (a : ℝ) (ha : 0 < a) :
    fmul (creal a) (some ⊥) = some ⊥ := by
  unfold fmul creal
  dsimp only
  rw [if_neg, EReal.coe_mul_bot_of_pos ha]
  rintro (⟨h, -⟩ | ⟨h, -⟩)
  · exact ha.ne' (EReal.coe_eq_zero.mp h)
  · exact EReal.bot_ne_zero h

theorem fsub_creal_bot (a : ℝ) : fsub (creal a) (some ⊥) = some ⊤ := by
  unfold fsub fneg fadd creal
  dsimp only
  rw [EReal.neg_bot, if_neg, EReal.coe_add_top]
  rintro (⟨-, h⟩ | ⟨h, -⟩)
  · exact (top_ne_bot h : False)
  · exact EReal.coe_ne_bot _ h

theorem fsub_top_creal (a : ℝ) : fsub (some ⊤) (creal a) = some ⊤ := by
  unfold fsub fneg fadd creal
  dsimp only
  rw [← EReal.coe_neg, if_neg, EReal.top_add_coe]
  rintro (⟨-, h⟩ | ⟨h, -⟩)
  · exact EReal.coe_ne_bot _ h
  · exact (top_ne_bot h : False)

theorem fsub_top_bot : fsub (some ⊤) (some ⊥) = some ⊤ := by
  unfold fsub fneg fadd
  dsimp only
  rw [EReal.neg_bot, if_neg, EReal.top_add_top]
  rintro (⟨-, h⟩ | ⟨h, -⟩)
  · exact (top_ne_bot h : False)
  · exact (top_ne_bot h : False)

theorem fadd_top_creal (a : ℝ) : fadd (some ⊤) (creal a) = some ⊤ := by
  unfold fadd creal
  dsimp only
  rw [if_neg, EReal.top_add_coe]
  rintro (⟨-, h⟩ | ⟨h, -⟩)
  · exact EReal.coe_ne_bot _ h
  · exact (top_ne_bot h : False)

theorem fmul_top_creal (a : ℝ) (ha : 0 < a) :
    fmul (some ⊤) (creal a) = some ⊤ := by
  unfold fmul creal
  dsimp only
  rw [if_neg, EReal.top_mul_coe_of_pos ha]
  rintro (⟨h, -⟩ | ⟨h, -⟩)
  · exact EReal.top_ne_zero h
  · exact ha.ne' (EReal.coe_eq_zero.mp h)

theorem fdiv_top_creal (a : ℝ) (ha : 0 < a) :
    fdiv (some ⊤) (creal a) = some ⊤ := by
  unfold fdiv creal
  dsimp only
  rw [if_neg, if_neg, if_neg, if_neg, if_pos rfl, if_pos]
  · exact EReal.coe_pos.mpr ha
  · exact fun h => ha.ne' (EReal.coe_eq_zero.mp h)
  · exact fun h => EReal.top_ne_zero h.1
  · rintro (h | h)
    · exact EReal.coe_ne_top _ h
    · exact EReal.coe_ne_bot _ h
  · rintro ⟨-, h | h⟩
    · exact EReal.coe_ne_top _ h
    · exact EReal.coe_ne_bot _ h

theorem fmin_top_creal (a : ℝ) : fmin (some ⊤) (creal a) = creal a := by
  unfold fmin creal
  dsimp only
  rw [min_eq_right le_top]

/-- C4 (confirmed).  For all non-negative `loc`, `comment_lines` and
`complexity` — including `loc = 0` — the maintainability index is a
defined, non-NaN value in `[0, 100]`.  At `loc = 0` the IEEE evaluation
produces `+∞` (never NaN: `ln 0 = -∞` is scaled and subtracted without any
`∞ - ∞`), and the final `min`/`max` clamp maps `+∞` to exactly `100`. -/
theorem C4_maintainability_bounds (loc comment_lines complexity : ℕ) :
    ∃ r : ℝ, calculate_maintainability_index loc comment_lines complexity
        = some ((r : ℝ) : EReal) ∧ 0 ≤ r ∧ r ≤ 100 := by
  rcases Nat.eq_zero_or_pos loc with hz | hpos
  · subst hz
    refine ⟨100, ?_, by norm_num, le_refl 100⟩
    unfold calculate_maintainability_index
    rw [if_neg (lt_irrefl 0)]
    dsimp only
    rw [fofNat_eq, fofNat_eq, Nat.cast_zero, fmul_creal,
      zero_mul, fln_creal_zero, fmul_creal_bot 5.2 (by norm_num),
      fsub_creal_bot, fmul_creal, fsub_top_creal,
      fmul_creal_bot 16.2 (by norm_num), fsub_top_bot, fmul_creal,
      mul_zero, fsqrt_creal 0 (le_refl 0), Real.sqrt_zero, fsin_creal,
      Real.sin_zero, fmul_creal, mul_zero, fadd_top_creal,
      fmul_top_creal 100 (by norm_num), fdiv_top_creal 171 (by norm_num),
      fmin_top_creal, fmax_creal]
    rw [max_eq_left (by norm_num : (0:ℝ) ≤ 100)]
    rfl
  · have hlocR : (0 : ℝ) < loc := by exact_mod_cast hpos
    have hln3 : (0 : ℝ) < (loc : ℝ) * 3 := by positivity
    have hratio : (0 : ℝ) ≤ 2.4 * ((comment_lines : ℝ) / (loc : ℝ)) := by
      positivity
    refine ⟨max (min ((171 - 5.2 * Real.log ((loc : ℝ) * 3)
        - 0.23 * (complexity : ℝ) - 16.2 * Real.log (loc : ℝ)
        + 50 * Real.sin (Real.sqrt
            (2.4 * ((comment_lines : ℝ) / (loc : ℝ))))) * 100 / 171) 100) 0,
      ?_, le_max_right _ _,
      max_le (le_trans (min_le_right _ _) (le_refl _)) (by norm_num)⟩
    unfold calculate_maintainability_index
    rw [if_pos hpos]
    dsimp only
    have hd1 : ∀ a : ℝ, fdiv (creal a) (creal (loc : ℝ)) = creal (a / loc) :=
      fun a => fdiv_creal a _ hlocR.ne'
    have hd2 : ∀ a : ℝ, fdiv (creal a) (creal 171) = creal (a / 171) :=
      fun a => fdiv_creal a _ (by norm_num)
    have hl1 : fln (creal ((loc : ℝ) * 3)) = creal (Real.log ((loc : ℝ) * 3)) :=
      fln_creal_pos _ hln3
    have hl2 : fln (creal (loc : ℝ)) = creal (Real.log (loc : ℝ)) :=
      fln_creal_pos _ hlocR
    have hs1 : fsqrt (creal (2.4 * ((comment_lines : ℝ) / (loc : ℝ))))
        = creal (Real.sqrt (2.4 * ((comment_lines : ℝ) / (loc : ℝ)))) :=
      fsqrt_creal _ hratio
    simp only [fofNat_eq, fmul_creal, fadd_creal, fsub_creal, fsin_creal,
      fmin_creal, fmax_creal, hd1, hd2, hl1, hl2, hs1]
    rfl

/-! ## Claim C5: complexity monotonicity

The token counting in `calculate_cyclomatic_complexity` is a substring
scan, so appending a construct changes the count compositionally only when
no pattern occurrence straddles the append boundary.  A body that is empty
or ends in a space guarantees this, because every counted pattern contains
a space only as its final character. -/

/-- The body ends in a space (or is empty) — the boundary condition under
which token counting is compositional. -/
def endsSpace (s : Str) : Prop := s = [] ∨ s.getLast? = some ' '

instance (s : Str) : Decidable (endsSpace s) :=
  inferInstanceAs (Decidable (s = [] ∨ s.getLast? = some ' '))

/-- Whether `pat` is a prefix only depends on the first `pat.length`
characters. -/
theorem isPrefixOf_append_of_le_length (p s t : Str)
    (h : p.length ≤ s.length) : p.isPrefixOf (s ++ t) = p.isPrefixOf s := by
  cases hb : p.isPrefixOf s with
  | true =>
    exact List.isPrefixOf_iff_prefix.mpr
      ((List.isPrefixOf_iff_prefix.mp hb).trans (s.prefix_append t))
  | false =>
    by_contra hcon
    have htrue : p.isPrefixOf (s ++ t) = true := by
      cases hx : p.isPrefixOf (s ++ t)
      · exact absurd hx hcon
      · rfl
    have hpp : p <+: s ++ t := List.isPrefixOf_iff_prefix.mp htrue
    have hps : p <+: s := by
      have hp' : p = (s ++ t).take p.length := List.prefix_iff_eq_take.mp hpp
      rw [List.take_append_of_le_length h] at hp'
      exact List.prefix_iff_eq_take.mpr hp'
    rw [List.isPrefixOf_iff_prefix.mpr hps] at hb
    cases hb

/-- A pattern with no interior space cannot straddle the boundary after a
space-final chunk. -/
theorem not_isPrefixOf_append_of_endsSpace (pat : Str)
    (hsp : ' ' ∉ pat.dropLast) (s t : Str)
    (hlast : s.getLast? = some ' ') (hlen : s.length < pat.length) :
    ¬ pat.isPrefixOf (s ++ t) := by
  intro hp
  have hpp : pat <+: s ++ t := List.isPrefixOf_iff_prefix.mp hp
  have hsp' : s <+: s ++ t := s.prefix_append t
  have hspat : s <+: pat := by
    rcases List.prefix_or_prefix_of_prefix hsp' hpp with h | h
    · exact h
    · have := h.length_le
      omega
  have hsd : s <+: pat.dropLast := by
    rw [List.dropLast_eq_take, List.prefix_take_iff]
    exact ⟨hspat, by omega⟩
  have hmem : ' ' ∈ s := by
    obtain ⟨hne, heq⟩ :=
      List.mem_getLast?_eq_getLast (Option.mem_def.mpr hlast)
    rw [heq]
    exact List.getLast_mem hne
  exact hsp (hsd.subset hmem)

/-- `endsSpace` survives dropping a prefix. -/
theorem endsSpace_drop (s : Str) (n : ℕ) (h : endsSpace s) :
    endsSpace (s.drop n) := by
  rcases h with h | h
  · subst h
    exact Or.inl (by simp)
  · by_cases hd : s.drop n = []
    · exact Or.inl hd
    · right
      obtain ⟨pre, hpre⟩ := s.drop_suffix n
      rw [← hpre] at h
      rwa [List.getLast?_append_of_ne_nil pre hd] at h

/-- `endsSpace` survives dropping the head. -/
theorem endsSpace_of_cons {c : Char} {rest : Str}
    (h : (c :: rest).getLast? = some ' ') : endsSpace rest := by
  cases rest with
  | nil => exact Or.inl rfl
  | cons d rest' =>
    right
    rwa [List.getLast?_cons_cons] at h

/-- Token counting is compositional across a space-final boundary, for any
pattern whose interior contains no space. -/
theorem countMatches_append (pat : Str) (hpat : pat ≠ [])
    (hsp : ' ' ∉ pat.dropLast) :
    ∀ (n : ℕ) (s t : Str), s.length ≤ n → endsSpace s →
      countMatches pat (s ++ t)
        = countMatches pat s + countMatches pat t := by
  intro n
  induction n with
  | zero =>
    intro s t hsl _
    have hs0 : s = [] := List.length_eq_zero.mp (Nat.le_zero.mp hsl)
    subst hs0
    rw [List.nil_append, countMatches.eq_1]
    omega
  | succ n ih =>
    intro s t hsl hes
    cases s with
    | nil =>
      rw [List.nil_append, countMatches.eq_1]
      omega
    | cons c rest =>
      have hlast : (c :: rest).getLast? = some ' ' := by
        rcases hes with h | h
        · exact absurd h (List.cons_ne_nil c rest)
        · exact h
      have hplen : 0 < pat.length := List.length_pos.mpr hpat
      rw [List.cons_append]
      by_cases hlen : pat.length ≤ (c :: rest).length
      · have heq : pat.isPrefixOf (c :: (rest ++ t))
            = pat.isPrefixOf (c :: rest) := by
          have h' := isPrefixOf_append_of_le_length pat (c :: rest) t hlen
          rwa [List.cons_append] at h'
        by_cases hp : pat.isPrefixOf (c :: rest)
        · rw [countMatches.eq_2, countMatches.eq_2,
            if_pos ⟨hpat, by rw [heq]; exact hp⟩, if_pos ⟨hpat, hp⟩]
          have hdrop : (c :: (rest ++ t)).drop pat.length
              = ((c :: rest).drop pat.length) ++ t := by
            rw [← List.cons_append, List.drop_append_of_le_length hlen]
          rw [hdrop]
          have hrec := ih ((c :: rest).drop pat.length) t
            (by
              simp only [List.length_drop, List.length_cons] at hsl ⊢
              omega)
            (endsSpace_drop _ _ (Or.inr hlast))
          rw [hrec]
          omega
        · have hnp1 : ¬ (pat ≠ [] ∧ pat.isPrefixOf (c :: (rest ++ t))) := by
            rintro ⟨-, hcon⟩
            rw [heq] at hcon
            exact hp hcon
          have hnp2 : ¬ (pat ≠ [] ∧ pat.isPrefixOf (c :: rest)) :=
            fun h' => hp h'.2
          rw [countMatches.eq_2, countMatches.eq_2, if_neg hnp1, if_neg hnp2]
          exact ih rest t
            (by simp only [List.length_cons] at hsl; omega)
            (endsSpace_of_cons hlast)
      · push_neg at hlen
        have hnp1 : ¬ (pat ≠ [] ∧ pat.isPrefixOf (c :: (rest ++ t))) := by
          rintro ⟨-, hcon⟩
          rw [← List.cons_append] at hcon
          exact not_isPrefixOf_append_of_endsSpace pat hsp (c :: rest) t
            hlast hlen hcon
        have hnp2 : ¬ (pat ≠ [] ∧ pat.isPrefixOf (c :: rest)) := by
          rintro ⟨-, hcon⟩
          have := (List.isPrefixOf_iff_prefix.mp hcon).length_le
          omega
        rw [countMatches.eq_2, countMatches.eq_2, if_neg hnp1, if_neg hnp2]
        exact ih rest t
          (by simp only [List.length_cons] at hsl; omega)
          (endsSpace_of_cons hlast)

/-- Convenience form of `countMatches_append`. -/
theorem countMatches_append' (pat : Str) (hpat : pat ≠ [])
    (hsp : ' ' ∉ pat.dropLast) (s t : Str) (hs : endsSpace s) :
    countMatches pat (s ++ t) = countMatches pat s + countMatches pat t :=
  countMatches_append pat hpat hsp s.length s t le_rfl hs

/-- Appending any chunk with an even pipe count after a space-final body
adds its own token counts to the cyclomatic complexity. -/
theorem cyclo_append (body t : Str) (hb : endsSpace body)
    (h2 : countMatches (lit "|") t % 2 = 0) :
    calculate_cyclomatic_complexity (body ++ t)
      = calculate_cyclomatic_complexity body
        + control_flow_patterns.foldl
            (fun acc pat => acc + countMatches pat t) 0
        + countMatches (lit "|") t / 2 := by
  unfold calculate_cyclomatic_complexity control_flow_patterns
  simp only [List.foldl_cons, List.foldl_nil]
  rw [countMatches_append' (lit "if ") (by decide) (by decide) body t hb,
    countMatches_append' (lit "else ") (by decide) (by decide) body t hb,
    countMatches_append' (lit "match ") (by decide) (by decide) body t hb,
    countMatches_append' (lit "for ") (by decide) (by decide) body t hb,
    countMatches_append' (lit "while ") (by decide) (by decide) body t hb,
    countMatches_append' (lit "loop") (by decide) (by decide) body t hb,
    countMatches_append' (lit "&&") (by decide) (by decide) body t hb,
    countMatches_append' (lit "||") (by decide) (by decide) body t hb,
    countMatches_append' (lit "?") (by decide) (by decide) body t hb,
    countMatches_append' (lit "return") (by decide) (by decide) body t hb,
    countMatches_append' (lit "break") (by decide) (by decide) body t hb,
    countMatches_append' (lit "continue") (by decide) (by decide) body t hb,
    countMatches_append' (lit "|") (by decide) (by decide) body t hb]
  obtain ⟨k, hk⟩ := Nat.dvd_of_mod_eq_zero h2
  rw [hk]
  omega

/-- Counterexample to C5 as stated: appending the single short-circuit
construct `||` to the empty body raises the complexity by 2, not 1 (its
token is counted once and its two pipes add one more via the closure
heuristic). -/
theorem C5_counterexample :
    ¬ (calculate_cyclomatic_complexity (lit "" ++ lit "||")
        = calculate_cyclomatic_complexity (lit "") + 1) := by
  simp +decide [calculate_cyclomatic_complexity, control_flow_patterns,
    countMatches, lit]

/-- C5 (corrected).  For a body that is empty or ends in a space (so the
appended token does not merge with preceding text), appending one
branch-inducing token raises the cyclomatic complexity by exactly 1 —
except the short-circuit or-operator `||`, which raises it by exactly 2
because its two pipe characters also feed the paired-closure-delimiter
heuristic. -/
theorem C5_complexity_monotonicity (body c : Str) (hb : endsSpace body)
    (hc : c ∈ control_flow_patterns) :
    calculate_cyclomatic_complexity (body ++ c)
      = calculate_cyclomatic_complexity body
        + (if c = lit "||" then 2 else 1) := by
  fin_cases hc <;>
    · rw [cyclo_append body _ hb (by simp +decide [countMatches, lit])]
      simp +decide [countMatches, control_flow_patterns, lit]

/-- Witness for the corrected C5 at a concrete body and two concrete
constructs (one ordinary, one the `||` exception). -/
theorem C5_complexity_monotonicity_witness :
    (endsSpace (lit "let x = y; ")
      ∧ (lit "if ") ∈ control_flow_patterns
      ∧ calculate_cyclomatic_complexity (lit "let x = y; " ++ lit "if ")
          = calculate_cyclomatic_complexity (lit "let x = y; ")
            + (if (lit "if ") = lit "||" then 2 else 1))
    ∧ (lit "||") ∈ control_flow_patterns
      ∧ calculate_cyclomatic_complexity (lit "let x = y; " ++ lit "||")
          = calculate_cyclomatic_complexity (lit "let x = y; ")
            + (if (lit "||") = lit "||" then 2 else 1) :=
  ⟨⟨by decide, by decide,
    C5_complexity_monotonicity _ _ (by decide) (by decide)⟩,
   by decide,
   C5_complexity_monotonicity _ _ (by decide) (by decide)⟩

/-! ## Claim C7: file-relative and parent-relative resolution

The claim as stated fails: when neither candidate module file exists on
disk, the resolver falls back to `<crate_root>/src/<joined segments>.rs`,
which keeps the literal `self`/`super` segment and lies outside the source
file's directory. -/

/-- Counterexample to C7 as stated: with an empty filesystem, the
`self::foo` reference from `proj/a/b.rs` resolves to the best-guess path
`proj/src/self/foo.rs`, which is not within the source directory
`proj/a`. -/
theorem C7_counterexample :
    resolve_import_path (fun _ => false) (fun _ => none) (lit "self::foo")
        ⟨false, [lit "proj", lit "a", lit "b.rs"]⟩ ⟨false, [lit "proj"]⟩
      = .ok ⟨false, [lit "proj", lit "src", lit "self", lit "foo.rs"]⟩
    ∧ ¬ withinDir ⟨false, [lit "proj", lit "a"]⟩
        ⟨false, [lit "proj", lit "src", lit "self", lit "foo.rs"]⟩ := by
  constructor
  · rfl
  · decide

theorem splitDColon_append_self (t : Str) :
    splitDColon (lit "self::" ++ t) = lit "self" :: splitDColon t := rfl

theorem splitDColon_append_super (t : Str) :
    splitDColon (lit "super::" ++ t) = lit "super" :: splitDColon t := rfl

theorem crate_isPrefixOf_self (t : Str) :
    (lit "crate::").isPrefixOf (lit "self::" ++ t) = false := rfl

theorem crate_isPrefixOf_super (t : Str) :
    (lit "crate::").isPrefixOf (lit "super::" ++ t) = false := rfl

theorem self_isPrefixOf_super (t : Str) :
    (lit "self::").isPrefixOf (lit "super::" ++ t) = false := rfl

/-- Appending `".rs"` does not make a relative path string absolute. -/
theorem isAbsStr_append_rs (m : Str) (h : isAbsStr m = false) :
    isAbsStr (m ++ lit ".rs") = false := by
  cases m with
  | nil => rfl
  | cons c m' => exact h

/-- Joining a relative string stays within the base directory. -/
theorem withinDir_pathJoin (p : Path) (s : Str) (h : isAbsStr s = false) :
    withinDir p (pathJoin p s) := by
  unfold withinDir pathJoin
  rw [h]
  exact ⟨rfl, List.prefix_append _ _⟩

/-- `withinDir` is transitive. -/
theorem withinDir_trans {a b c : Path} (h1 : withinDir a b)
    (h2 : withinDir b c) : withinDir a c :=
  ⟨h1.1.trans h2.1, h1.2.trans h2.2⟩

/-- Every self-candidate lies within the source directory, provided the
stripped module path is not an absolute path string. -/
theorem selfCandidates_within (source_dir : Path) (import_path : Str)
    (habs : isAbsStr (replaceDColonSlash (import_path.drop 6)) = false) :
    ∀ p ∈ selfCandidates source_dir import_path, withinDir source_dir p := by
  intro p hp
  unfold selfCandidates at hp
  rcases List.mem_cons.mp hp with rfl | hp'
  · exact withinDir_pathJoin _ _ (isAbsStr_append_rs _ habs)
  · rcases List.mem_singleton.mp (by simpa using hp') with rfl
    exact withinDir_trans (withinDir_pathJoin _ _ habs)
      (withinDir_pathJoin _ _ rfl)

/-- Every super-candidate lies within the parent directory, provided the
stripped module path is not an absolute path string. -/
theorem superCandidates_within (source_dir parent_dir : Path)
    (import_path : Str) (hpd : pathParent source_dir = some parent_dir)
    (habs : isAbsStr (replaceDColonSlash (import_path.drop 7)) = false) :
    ∀ p ∈ superCandidates source_dir import_path,
      withinDir parent_dir p := by
  intro p hp
  unfold superCandidates at hp
  rw [hpd] at hp
  rcases List.mem_cons.mp hp with rfl | hp'
  · exact withinDir_pathJoin _ _ (isAbsStr_append_rs _ habs)
  · rcases List.mem_singleton.mp (by simpa using hp') with rfl
    exact withinDir_trans (withinDir_pathJoin _ _ habs)
      (withinDir_pathJoin _ _ rfl)

/-- C7 (corrected).  When the reference is not mistaken for an external
dependency, strips to a relative module path, and one of its two candidate
files exists on disk, a `self::` reference resolves within the source
file's directory, and a `super::` reference within the directory above it
(when that directory exists).  Without an existing candidate the resolver
instead falls back to a crate-root best guess (see the counterexample). -/
theorem C7_relative_resolution (ex : Path → Bool) (rd : Path → Option Str)
    (import_path : Str) (source_path project_root : Path) :
    ((lit "self::").isPrefixOf import_path = true →
      isAbsStr (replaceDColonSlash (import_path.drop 6)) = false →
      isExternalDep rd (cargoOf ex project_root source_path)
          ((splitDColon import_path).headD []) = false →
      (∃ c ∈ selfCandidates ((pathParent source_path).getD emptyPath)
          import_path, ex c = true) →
      ∃ p, resolve_import_path ex rd import_path source_path project_root
          = .ok p
        ∧ withinDir ((pathParent source_path).getD emptyPath) p)
    ∧ ((lit "super::").isPrefixOf import_path = true →
      isAbsStr (replaceDColonSlash (import_path.drop 7)) = false →
      isExternalDep rd (cargoOf ex project_root source_path)
          ((splitDColon import_path).headD []) = false →
      ∀ parent_dir,
        pathParent ((pathParent source_path).getD emptyPath)
          = some parent_dir →
      (∃ c ∈ superCandidates ((pathParent source_path).getD emptyPath)
          import_path, ex c = true) →
      ∃ p, resolve_import_path ex rd import_path source_path project_root
          = .ok p
        ∧ withinDir parent_dir p) := by
  constructor
  · intro hpre habs hext hcand
    obtain ⟨t, ht⟩ := List.isPrefixOf_iff_prefix.mp hpre
    subst ht
    obtain ⟨p, hfind⟩ : ∃ p,
        (selfCandidates ((pathParent source_path).getD emptyPath)
          (lit "self::" ++ t)).find? ex = some p := by
      rw [← Option.isSome_iff_exists, List.find?_isSome]
      exact hcand
    refine ⟨p, ?_, selfCandidates_within _ _ habs p
      (List.mem_of_find?_eq_some hfind)⟩
    unfold resolve_import_path
    rw [if_neg (by
      rw [splitDColon_append_self, List.headD_cons]
      decide)]
    rw [if_neg (by
      intro hcon
      exact splitDColon_ne_nil _ hcon)]
    rw [if_neg (by rw [hext]; exact Bool.false_ne_true)]
    rw [if_neg (by simp [crate_isPrefixOf_self])]
    rw [if_pos (by simp [hpre])]
    rw [if_pos hpre]
    dsimp only
    rw [hfind]
  · intro hpre habs hext parent_dir hpd hcand
    obtain ⟨t, ht⟩ := List.isPrefixOf_iff_prefix.mp hpre
    subst ht
    obtain ⟨p, hfind⟩ : ∃ p,
        (superCandidates ((pathParent source_path).getD emptyPath)
          (lit "super::" ++ t)).find? ex = some p := by
      rw [← Option.isSome_iff_exists, List.find?_isSome]
      exact hcand
    refine ⟨p, ?_, superCandidates_within _ _ _ hpd habs p
      (List.mem_of_find?_eq_some hfind)⟩
    unfold resolve_import_path
    rw [if_neg (by
      rw [splitDColon_append_super, List.headD_cons]
      decide)]
    rw [if_neg (by
      intro hcon
      exact splitDColon_ne_nil _ hcon)]
    rw [if_neg (by rw [hext]; exact Bool.false_ne_true)]
    rw [if_neg (by simp [crate_isPrefixOf_super])]
    rw [if_pos (by simp [hpre])]
    rw [if_neg (by simp [self_isPrefixOf_super])]
    dsimp only
    rw [hfind]

/-- Witness for the corrected C7: concrete `self::foo` and `super::foo`
references whose candidate files exist. -/
theorem C7_relative_resolution_witness :
    (∃ p, resolve_import_path
        (fun q => decide (q = ⟨false, [lit "proj", lit "a", lit "foo.rs"]⟩))
        (fun _ => none) (lit "self::foo")
        ⟨false, [lit "proj", lit "a", lit "b.rs"]⟩ ⟨false, [lit "proj"]⟩
        = .ok p
      ∧ withinDir ((pathParent
          (⟨false, [lit "proj", lit "a", lit "b.rs"]⟩ : Path)).getD
            emptyPath) p)
    ∧ (∃ p, resolve_import_path
        (fun q => decide (q = ⟨false, [lit "proj", lit "foo.rs"]⟩))
        (fun _ => none) (lit "super::foo")
        ⟨false, [lit "proj", lit "a", lit "b.rs"]⟩ ⟨false, [lit "proj"]⟩
        = .ok p
      ∧ withinDir ⟨false, [lit "proj"]⟩ p) :=
  ⟨(C7_relative_resolution _ _ _ _ _).1 (by decide) (by decide) (by decide)
      (by decide),
   (C7_relative_resolution _ _ _ _ _).2 (by decide) (by decide) (by decide)
      ⟨false, [lit "proj"]⟩ (by decide) (by decide)⟩

/-! ## Claim C8: per-file failure tolerance -/

/-- Characterisation of the orchestrator's fold: the batch result is the
per-file successes, in order, independent of failures elsewhere. -/
theorem analyze_files_foldl (getA : Path → Option LangAnalyzer) :
    ∀ (files : List Path) (acc : List FileAnalysis × List Dependency),
      files.foldl
        (fun (acc : List FileAnalysis × List Dependency) path =>
          match getA path with
          | none => acc
          | some analyzer =>
            let acc1 :=
              match analyzer.analyzeFile path with
              | .ok file_analysis => (acc.1 ++ [file_analysis], acc.2)
              | .error _ => acc
            match analyzer.extractDeps path with
            | .ok file_deps => (acc1.1, acc1.2 ++ file_deps)
            | .error _ => acc1) acc
      = (acc.1 ++ files.filterMap
            (fun p => (getA p).bind (fun a => (a.analyzeFile p).toOption)),
         acc.2 ++ (files.map (fun p =>
            Option.getD
              ((getA p).map (fun a => (a.extractDeps p).toOption.getD []))
              [])).flatten) := by
  intro files
  induction files with
  | nil => intro acc; simp
  | cons p files ih =>
    intro acc
    rw [List.foldl_cons, ih]
    cases hga : getA p with
    | none => simp [hga]
    | some a =>
      cases haf : a.analyzeFile p with
      | ok fa =>
        cases hed : a.extractDeps p with
        | ok ds => simp [hga, haf, hed, Except.toOption]
        | error e => simp [hga, haf, hed, Except.toOption]
      | error e =>
        cases hed : a.extractDeps p with
        | ok ds => simp [hga, haf, hed, Except.toOption]
        | error e' => simp [hga, haf, hed, Except.toOption]

/-- C8 (confirmed).  `analyze_files` always returns `Ok`; a file whose
`analyze_file` (resp. `extract_dependencies`) call fails contributes no
`FileAnalysis` (resp. no dependencies), and every other file's
contribution is exactly what it would have been anyway. -/
theorem C8_per_file_tolerance (getA : Path → Option LangAnalyzer)
    (files : List Path) :
    ∃ r, analyze_files getA files = .ok r
      ∧ r.file_analyses = files.filterMap
          (fun p => (getA p).bind (fun a => (a.analyzeFile p).toOption))
      ∧ r.dependencies = (files.map (fun p =>
          Option.getD
            ((getA p).map (fun a => (a.extractDeps p).toOption.getD []))
            [])).flatten := by
  refine ⟨_, rfl, ?_, ?_⟩
  · show (files.foldl _ ([], [])).1 = _
    rw [analyze_files_foldl]
    simp
  · show (files.foldl _ ([], [])).2 = _
    rw [analyze_files_foldl]
    simp

/-! ## Claim C10: the Rust analyzer never surfaces classes -/

/-- C10 (confirmed).  Whatever the file content and extraction results,
every successful `FileAnalysis` from the Rust analyzer has an empty
`classes` list and `class_count = 0`. -/
theorem C10_no_classes {Tree : Type} (readF : Path → Option Str)
    (parseF : Str → Option Tree)
    (extractFns : Tree → Str → Except Str (List Function))
    (extractImps : Tree → Str → Except Str (List Import))
    (extractVars : Tree → Str → Except Str (List Variable))
    (path : Path) (fa : FileAnalysis)
    (h : rust_analyze_file readF parseF extractFns extractImps extractVars
        path = .ok fa) :
    fa.classes = [] ∧ fa.metrics.class_count = 0 := by
  unfold rust_analyze_file at h
  cases hrf : readF path with
  | none =>
    simp only [hrf] at h
    cases h
  | some content =>
    simp only [hrf] at h
    cases hpf : parseF content with
    | none =>
      simp only [hpf] at h
      cases h
    | some tree =>
      simp only [hpf] at h
      cases hfn : extractFns tree content with
      | error e =>
        simp only [hfn] at h
        cases h
      | ok functions =>
        simp only [hfn] at h
        cases him : extractImps tree content with
        | error e =>
          simp only [him] at h
          cases h
        | ok imports =>
          simp only [him] at h
          cases hvr : extractVars tree content with
          | error e =>
            simp only [hvr] at h
            cases h
          | ok vs =>
            simp only [hvr] at h
            cases h
            exact ⟨rfl, rfl⟩

/-- Witness for C10: a trivially successful run of the analyzer. -/
theorem C10_no_classes_witness :
    ∃ fa, @rust_analyze_file Unit (fun _ => some (lit "fn main() {}"))
        (fun _ => some ()) (fun _ _ => .ok []) (fun _ _ => .ok [])
        (fun _ _ => .ok []) emptyPath = .ok fa
      ∧ fa.classes = [] ∧ fa.metrics.class_count = 0 :=
  ⟨_, rfl,
    C10_no_classes (fun _ => some (lit "fn main() {}")) (fun _ => some ())
      (fun _ _ => .ok []) (fun _ _ => .ok []) (fun _ _ => .ok [])
      emptyPath _ rfl⟩

end ZSEI
